import Mathlib

/-!
Verification of the rbxapi repository's entity model and patch engine
(packages `rbxapidump` and `rbxapijson`), shallowly embedded in Lean.

Go slices of strings become `List String`; Go strings used as byte/char
sequences become `List Char` where index arithmetic matters; interface
values that may be nil become `Option`; a Go runtime panic (slice bounds
out of range) is modelled by an `Option`-returning function yielding
`none`.
-/

/-- Go's `copy(dst, src)` copies `min (len dst) (len src)` elements of
`src` onto the front of `dst` and leaves the rest of `dst` unchanged;
the value of `dst` afterwards. -/
def goCopy (dst src : List String) : List String :=
  src.take (min dst.length src.length) ++ dst.drop (min dst.length src.length)

/-- `Tags` contains the list of tags of a descriptor (rbxapidump/rbxapi.go). -/
abbrev Tags := List String

/-- rbxapidump `Tags.GetTags`: `list := make([]string, len(tags)); copy(list, tags)`
(rbxapidump/rbxapi.go lines 538-542). -/
def Tags.GetTags (tags : Tags) : List String :=
  goCopy (List.replicate tags.length "") tags

/-- rbxapijson `Tags.GetTags` as written in src/unnamed/part_000 lines 516-520:
`list := make([]string, len(tags)); copy(list, tags)`. -/
def Rbxapijson.GetTags (tags : List String) : List String :=
  goCopy (List.replicate tags.length "") tags

/-- rbxapijson `Tags.GetTags` as written in the second document embedded in
src/rbxapidump/patch.go (lines 688-692): `list := make([]string, 0, len(tags));
copy(list, tags)`. The destination slice has length 0 (capacity `len(tags)`),
so `copy` transfers `min 0 (len tags) = 0` elements. -/
def RbxapijsonAlt.GetTags (tags : List String) : List String :=
  goCopy [] tags

/-- The deduplication loop shared by both representations' `SetTag`
(rbxapidump/rbxapi.go lines 547-557): element `i` is removed when it equals
some earlier element `j < i`; the elements at indices below `i` are exactly
the survivors kept so far, so an element survives iff its value has not
occurred earlier.  `seen` accumulates the values kept so far. -/
def dedupFirstAux (seen : List String) : List String → List String
  | [] => []
  | t :: ts =>
    if seen.contains t then dedupFirstAux seen ts
    else t :: dedupFirstAux (t :: seen) ts

/-- rbxapidump `Tags.SetTag` (rbxapi.go lines 545-558): append the new tags,
then run the deduplication loop over the whole list. -/
def Tags.SetTag (tags : Tags) (tag : List String) : Tags :=
  dedupFirstAux [] (tags ++ tag)

/-- rbxapidump `Tags.UnsetTag` (rbxapi.go lines 562-574): the loop removes
every element equal to any of the given tags, i.e. keeps exactly the
elements not among `tag`. -/
def Tags.UnsetTag (tags : Tags) (tag : List String) : Tags :=
  tags.filter (fun t => !(tag.contains t))

/-- rbxapidump `Type` is a plain string; `GetName`/`GetCategory` split it at
the first colon (`strings.Index(typ, ":")`).  `splitColon l` returns
`some (before, after)` for the first colon of `l`, or `none` if `l` has no
colon. -/
def splitColon : List Char → Option (List Char × List Char)
  | [] => none
  | c :: cs =>
    if c = ':' then some ([], cs)
    else
      match splitColon cs with
      | none => none
      | some (a, b) => some (c :: a, b)

/-- rbxapidump `Type.GetName` (rbxapi.go lines 582-587): everything after the
first colon, or the whole string when there is no colon. -/
def TypeGetName (typ : String) : String :=
  match splitColon typ.toList with
  | some (_, n) => String.mk n
  | none => typ

/-- rbxapidump `Type.GetCategory` (rbxapi.go lines 593-598): everything before
the first colon, or the empty string when there is no colon. -/
def TypeGetCategory (typ : String) : String :=
  match splitColon typ.toList with
  | some (c, _) => String.mk c
  | none => ""

/-- A generic `rbxapi.Type` capability view: a (category, name) pair, as the
rbxapijson representation stores it directly. -/
structure TypeView where
  Category : String
  Name : String
deriving DecidableEq

/-- rbxapidump `Type.SetFromType` (rbxapi.go lines 615-621): pack the generic
view's category and name into the colon-delimited string. -/
def TypeSetFromType (t : TypeView) : String :=
  if t.Category = "" then t.Name else t.Category ++ ":" ++ t.Name

/-- Go `strings.Contains(s, sub)` over char lists: some suffix of `s` starts
with `sub`. -/
def containsSub : List Char → List Char → Bool
  | [], sub => sub.isEmpty
  | s@(_ :: t), sub => sub.isPrefixOf s || containsSub t sub

/-- The write-restriction marker scanned for by `Property.GetSecurity`
(rbxapidump/rbxapi.go line 189). -/
def wrPfx : List Char := "ScriptWriteRestricted: [".toList

/-- Whether a tag matches the read-security scan of the rbxapidump package:
`strings.Contains(tag, "Security") || strings.Contains(tag, "security")`. -/
def hasSecTag (t : String) : Bool :=
  containsSub t.toList "Security".toList || containsSub t.toList "security".toList

/-- Go string slicing `s[a:b]`, which panics unless `0 <= a <= b <= len s`;
the panic is modelled as `none`. -/
def goStringSlice (s : List Char) (a b : Nat) : Option (List Char) :=
  if a ≤ b ∧ b ≤ s.length then some ((s.take b).drop a) else none

/-- The loop body of rbxapidump `(*Property).GetSecurity`
(rbxapi.go lines 188-205), carrying the `read` and `write` accumulators.
A prefixed tag is sliced as `tag[len(prefix) : len(tag)-1]`; under the
prefix guard `len(tag) ≥ len(prefix) ≥ 1`, so the natural subtraction
`t.length - 1` agrees with Go's integer subtraction.  The early `break`
when both accumulators are filled returns them unchanged. -/
def getSecLoop : List String → String → String → Option (String × String)
  | [], r, w => some (r, w)
  | t :: ts, r, w =>
    if w = "" ∧ wrPfx.isPrefixOf t.toList then
      match goStringSlice t.toList wrPfx.length (t.toList.length - 1) with
      | none => none
      | some wchars =>
        if r ≠ "" then some (r, String.mk wchars)
        else getSecLoop ts r (String.mk wchars)
    else if r = "" ∧ hasSecTag t then
      if w ≠ "" then some (t, w) else getSecLoop ts t w
    else getSecLoop ts r w

/-- rbxapidump `(*Property).GetSecurity` as a function of the property's tag
list; `none` models the Go panic raised by an out-of-range slice. -/
def PropertyGetSecurity (tags : List String) : Option (String × String) :=
  getSecLoop tags "" ""

/-- rbxapidump `getSecurity` (rbxapi.go lines 144-151), used by Function,
Event and Callback: the first tag containing "Security" or "security". -/
def getSecurity (tags : Tags) : String :=
  match tags.find? hasSecTag with
  | some t => t
  | none => ""

-- Scratch checks of the model on concrete inputs.
example : Tags.SetTag ["A", "B"] ["A"] = ["A", "B"] := by decide
example : Tags.SetTag ["B", "B", "A"] ["A"] = ["B", "A"] := by decide
example : Tags.UnsetTag ["A", "B", "A"] ["A"] = ["B"] := by decide
example : Tags.GetTags ["x", "y"] = ["x", "y"] := by decide
example : RbxapijsonAlt.GetTags ["x", "y"] = [] := by decide
example : TypeGetName "Enum:Material" = "Material" := by decide
example : TypeGetCategory "Enum:Material" = "Enum" := by decide
example : TypeGetName ":x" = "x" := by decide
example : TypeGetCategory ":x" = "" := by decide
example : hasSecTag "SECURITY" = false := by decide
example : hasSecTag "LocalUserSecurity" = true := by decide
example : PropertyGetSecurity ["ScriptWriteRestricted: ["] = none := by decide
example : PropertyGetSecurity ["ScriptWriteRestricted: [X]"] = some ("", "X") := by decide
example : PropertyGetSecurity ["SECURITY"] = some ("", "") := by decide
example : PropertyGetSecurity ["ScriptWriteRestricted: [VSecurity]"] = some ("", "VSecurity") := by decide

/-!
## Entity model (rbxapidump) and the patch.Action contract

The concrete rbxapidump structs keep their Go field names (`Class` the Go
field becomes `Cls` since `class` is reserved; `Type` fields become `Typ`).
The `patch` package itself is not under src/; its `Action` contract is
modelled from the spec (sections 4.3 and 6).  Everything lives in the
`Rbxapidump` namespace since Mathlib already has `Class` and `Action`.
-/

namespace Rbxapidump

/-- rbxapidump `Parameter` (rbxapi.go lines 399-404); the `Type` field is the
packed colon-delimited string. -/
structure Parameter where
  Typ : String
  Name : String
  HasDefault : Bool
  Default : String
deriving DecidableEq

/-- The four concrete rbxapidump member structs `Property`, `Function`,
`Event`, `Callback` (rbxapi.go), as one sum.  Each carries its Go fields:
name, owning-class name (`Cls`), the kind-specific type/parameter fields,
and the tag list. -/
inductive Member where
  | Property (Name Cls : String) (ValueType : String) (Tags : List String)
  | Function (Name Cls : String) (ReturnType : String) (Parameters : List Parameter) (Tags : List String)
  | Event (Name Cls : String) (Parameters : List Parameter) (Tags : List String)
  | Callback (Name Cls : String) (ReturnType : String) (Parameters : List Parameter) (Tags : List String)
deriving DecidableEq

/-- `GetName` of each member struct. -/
def Member.GetName : Member → String
  | .Property n _ _ _ => n
  | .Function n _ _ _ _ => n
  | .Event n _ _ _ => n
  | .Callback n _ _ _ _ => n

/-- `GetMemberType` of each member struct. -/
def Member.GetMemberType : Member → String
  | .Property _ _ _ _ => "Property"
  | .Function _ _ _ _ _ => "Function"
  | .Event _ _ _ _ => "Event"
  | .Callback _ _ _ _ _ => "Callback"

/-- Setting the `Class` field of a member, as the loop in `copyClass` does
for each converted member (patch.go lines 17-31). -/
def Member.withCls (cls : String) : Member → Member
  | .Property n _ vt tags => .Property n cls vt tags
  | .Function n _ rt ps tags => .Function n cls rt ps tags
  | .Event n _ ps tags => .Event n cls ps tags
  | .Callback n _ rt ps tags => .Callback n cls rt ps tags

/-- rbxapidump `Class` (rbxapi.go lines 87-92). -/
structure Class where
  Name : String
  Superclass : String
  Members : List Member
  Tags : List String
deriving DecidableEq

/-- rbxapidump `EnumItem` (rbxapi.go lines 490-495). -/
structure EnumItem where
  Enum : String
  Name : String
  Value : Int
  Tags : List String
deriving DecidableEq

/-- rbxapidump `Enum` (rbxapi.go lines 439-443). -/
structure Enum where
  Name : String
  Items : List EnumItem
  Tags : List String
deriving DecidableEq

/-- rbxapidump `Root` (rbxapi.go lines 14-19). -/
structure Root where
  Classes : List Class
  Enums : List Enum
deriving DecidableEq

/-- The linear first-match scan of `(*Root).GetClass` (rbxapi.go lines 36-43);
`none` models the nil return. -/
def findClassNamed (name : String) : List Class → Option Class
  | [] => none
  | c :: cs => if c.Name = name then some c else findClassNamed name cs

/-- rbxapidump `(*Root).GetClass`. -/
def Root.GetClass (root : Root) (name : String) : Option Class :=
  findClassNamed name root.Classes

/-- The linear first-match scan of `(*Root).GetEnum` (rbxapi.go lines 60-67). -/
def findEnumNamed (name : String) : List Enum → Option Enum
  | [] => none
  | e :: es => if e.Name = name then some e else findEnumNamed name es

/-- rbxapidump `(*Root).GetEnum`. -/
def Root.GetEnum (root : Root) (name : String) : Option Enum :=
  findEnumNamed name root.Enums

/-- A `rbxapi.Parameter` capability view carried by a generic parameter
list payload. -/
structure ParamView where
  Typ : TypeView
  Name : String
  HasDefault : Bool
  Default : String
deriving DecidableEq

/-- Modelled from the spec: the generic `rbxapi.Member` capability view that
an action payload exposes (spec sections 4.2 and 6; the `rbxapi` interface
package is not under src/).  The shapes mirror the dispatch of `copyMember`
(patch.go lines 36-70): a property-shaped source, a function-shaped source
(return type plus parameters, disambiguated only by its kind tag), an
event-shaped source, and any other shape. -/
inductive MemberView where
  | prop (Name : String) (ValueType : TypeView) (Tags : List String)
  | func (KindTag Name : String) (ReturnType : TypeView) (Parameters : List ParamView) (Tags : List String)
  | event (Name : String) (Parameters : List ParamView) (Tags : List String)
  | other (KindTag Name : String)
deriving DecidableEq

/-- `GetName` of a generic member view. -/
def MemberView.GetName : MemberView → String
  | .prop n _ _ => n
  | .func _ n _ _ _ => n
  | .event n _ _ => n
  | .other _ n => n

/-- `GetMemberType` of a generic member view. -/
def MemberView.GetMemberType : MemberView → String
  | .prop _ _ _ => "Property"
  | .func k _ _ _ _ => k
  | .event _ _ _ => "Event"
  | .other k _ => k

/-- A generic `rbxapi.Class` capability view carried by an action. -/
structure ClassView where
  Name : String
  Superclass : String
  Members : List MemberView
  Tags : List String
deriving DecidableEq

/-- A generic `rbxapi.EnumItem` capability view carried by an action. -/
structure EnumItemView where
  Name : String
  Value : Int
  Tags : List String
deriving DecidableEq

/-- A generic `rbxapi.Enum` capability view carried by an action. -/
structure EnumView where
  Name : String
  Items : List EnumItemView
  Tags : List String
deriving DecidableEq

/-- `patch.Type`: the patch action types Remove, Change, Add
(used by the `GetType` switches in patch.go). -/
inductive PatchType where
  | Remove
  | Change
  | Add
deriving DecidableEq

/-- The dynamic type of a Change action's `GetNext()` payload, matching the
type assertions performed in patch.go: `string`, `[]string`, `rbxapi.Type`,
`rbxapi.Parameters`, `int`, or anything else. -/
inductive NextValue where
  | str (s : String)
  | strList (l : List String)
  | typ (t : TypeView)
  | params (l : List ParamView)
  | int (n : Int)
  | other
deriving DecidableEq

/-- Modelled from the spec: the `patch.Action` contract (spec sections 4.3
step 1 and 6; the `patch` package is not under src/).  `isMember`,
`isClass`, `isEnumItem`, `isEnum` record which interface assertions the
action's dynamic type satisfies; the spec states that a member action also
satisfies the looser class-action view (and an enum-item action the enum
view), so the dispatch below tests `isMember || isClass` where the Go code
asserts `patch.Class`.  The `Option` accessors model nil returns. -/
structure Action where
  isMember : Bool
  isClass : Bool
  isEnumItem : Bool
  isEnum : Bool
  Typ : PatchType
  ClassV : Option ClassView
  MemberV : Option MemberView
  EnumV : Option EnumView
  ItemV : Option EnumItemView
  Field : String
  Next : NextValue
deriving DecidableEq

/-- `copyType` (patch.go lines 112-116): `SetFromType` on a fresh Type. -/
def copyType (t : TypeView) : String :=
  TypeSetFromType t

/-- `copyParameters` (patch.go lines 100-109): each parameter's type is
converted with `SetFromType`; name and default are copied. -/
def copyParameters (l : List ParamView) : List Parameter :=
  l.map fun p => { Typ := copyType p.Typ, Name := p.Name, HasDefault := p.HasDefault, Default := p.Default }

/-- `copyMember` (patch.go lines 36-70): dispatch on the source's shape; a
function-shaped source becomes a Function or Callback according to its
member-type tag, any other tag converts to nothing (`nil`). -/
def copyMember : MemberView → Option Member
  | .prop n vt tags => some (.Property n "" (copyType vt) tags)
  | .func k n rt ps tags =>
    if k = "Function" then some (.Function n "" (copyType rt) (copyParameters ps) tags)
    else if k = "Callback" then some (.Callback n "" (copyType rt) (copyParameters ps) tags)
    else none
  | .event n ps tags => some (.Event n "" (copyParameters ps) tags)
  | .other _ _ => none

/-- `copyClass` (patch.go lines 9-33): copies name, superclass and tag
snapshot; converts every member, sets each converted member's `Class` field
to the class name, and drops members that fail to convert. -/
def copyClass (cv : ClassView) : Class :=
  { Name := cv.Name
    Superclass := cv.Superclass
    Members := cv.Members.filterMap fun mv => (copyMember mv).map (Member.withCls cv.Name)
    Tags := cv.Tags }

/-- `copyEnumItem` (patch.go lines 90-96): name, value, tag snapshot; the
`Enum` field is left empty (the caller fills it in). -/
def copyEnumItem (iv : EnumItemView) : EnumItem :=
  { Enum := "", Name := iv.Name, Value := iv.Value, Tags := iv.Tags }

/-- `copyEnum` (patch.go lines 73-87): copies name and tag snapshot, converts
every item and stamps it with the owning enum name. -/
def copyEnum (ev : EnumView) : Enum :=
  { Name := ev.Name
    Items := ev.Items.map fun iv => { copyEnumItem iv with Enum := ev.Name }
    Tags := ev.Tags }

/-!
## Patch engine (rbxapidump/patch.go)

Each Go `Patch` method iterates its action slice; the engine only ever
forwards singleton slices, so the core is the single-action step
(`...PatchOne`), with the slice version as a fold.
-/

/-- The per-action step of the member `Patch` methods
(`(*Property).Patch`, `(*Function).Patch`, `(*Event).Patch`,
`(*Callback).Patch`, patch.go lines 263-366), merged over the member sum:
only Change actions act, on the fields each concrete member recognises.
`ValueType`/`ReturnType` accept either a generic `rbxapi.Type` payload
(applied via `SetFromType`) or a raw string; `Parameters` accepts a generic
parameter list (bridge-copied); `Tags` is replaced by a snapshot. -/
def Member.PatchOne (m : Member) (a : Action) : Member :=
  if a.Typ ≠ PatchType.Change then m
  else
    match m with
    | .Property n cls vt tags =>
      match a.Field, a.Next with
      | "Name", .str v => .Property v cls vt tags
      | "ValueType", .typ v => .Property n cls (TypeSetFromType v) tags
      | "ValueType", .str v => .Property n cls v tags
      | "Tags", .strList v => .Property n cls vt (Tags.GetTags v)
      | _, _ => m
    | .Function n cls rt ps tags =>
      match a.Field, a.Next with
      | "Name", .str v => .Function v cls rt ps tags
      | "ReturnType", .typ v => .Function n cls (TypeSetFromType v) ps tags
      | "ReturnType", .str v => .Function n cls v ps tags
      | "Parameters", .params v => .Function n cls rt (copyParameters v) tags
      | "Tags", .strList v => .Function n cls rt ps (Tags.GetTags v)
      | _, _ => m
    | .Event n cls ps tags =>
      match a.Field, a.Next with
      | "Name", .str v => .Event v cls ps tags
      | "Parameters", .params v => .Event n cls (copyParameters v) tags
      | "Tags", .strList v => .Event n cls ps (Tags.GetTags v)
      | _, _ => m
    | .Callback n cls rt ps tags =>
      match a.Field, a.Next with
      | "Name", .str v => .Callback v cls rt ps tags
      | "ReturnType", .typ v => .Callback n cls (TypeSetFromType v) ps tags
      | "ReturnType", .str v => .Callback n cls v ps tags
      | "Parameters", .params v => .Callback n cls rt (copyParameters v) tags
      | "Tags", .strList v => .Callback n cls rt ps (Tags.GetTags v)
      | _, _ => m

/-- The member-Remove scan of `(*Class).Patch` (patch.go lines 210-218):
delete the first member whose name matches, comparing names only. -/
def removeFirstMemberNamed (name : String) : List Member → List Member
  | [] => []
  | m :: ms => if m.GetName = name then ms else m :: removeFirstMemberNamed name ms

/-- The member-Change scan of `(*Class).Patch` (patch.go lines 224-233):
patch the first member matching on name AND member type.  (The Go code also
checks that the member implements `patch.Patcher`; every concrete
rbxapidump member does.) -/
def patchFirstMemberNamedKind (name mtype : String) (a : Action) : List Member → List Member
  | [] => []
  | m :: ms =>
    if m.GetName = name ∧ m.GetMemberType = mtype then Member.PatchOne m a :: ms
    else m :: patchFirstMemberNamedKind name mtype a ms

/-- The per-action step of `(*Class).Patch` (patch.go lines 204-261):
member actions (class and member views both non-nil) remove by name, add a
bridged copy, or change by name and kind; class-shaped actions apply a
Change to the `Name`, `Superclass` or `Tags` field when the payload has the
expected type. -/
def Class.PatchOne (c : Class) (a : Action) : Class :=
  if a.isMember && (a.ClassV).isSome && (a.MemberV).isSome then
    match a.MemberV with
    | some mv =>
      match a.Typ with
      | .Remove => { c with Members := removeFirstMemberNamed mv.GetName c.Members }
      | .Add =>
        match copyMember mv with
        | some m => { c with Members := c.Members ++ [m] }
        | none => c
      | .Change => { c with Members := patchFirstMemberNamedKind mv.GetName mv.GetMemberType a c.Members }
    | none => c
  else if (a.isMember || a.isClass) && (a.ClassV).isSome then
    if a.Typ ≠ PatchType.Change then c
    else
      match a.Field, a.Next with
      | "Name", .str v => { c with Name := v }
      | "Superclass", .str v => { c with Superclass := v }
      | "Tags", .strList v => { c with Tags := Tags.GetTags v }
      | _, _ => c
  else c

/-- `(*Class).Patch`, folding the per-action step over the action list. -/
def Class.Patch (c : Class) (actions : List Action) : Class :=
  actions.foldl Class.PatchOne c

/-- The per-action step of `(*EnumItem).Patch` (patch.go lines 418-438). -/
def EnumItem.PatchOne (item : EnumItem) (a : Action) : EnumItem :=
  if a.Typ ≠ PatchType.Change then item
  else
    match a.Field, a.Next with
    | "Name", .str v => { item with Name := v }
    | "Value", .int v => { item with Value := v }
    | "Tags", .strList v => { item with Tags := Tags.GetTags v }
    | _, _ => item

/-- The item-Remove scan of `(*Enum).Patch` (patch.go lines 374-382). -/
def removeFirstItemNamed (name : String) : List EnumItem → List EnumItem
  | [] => []
  | i :: is' => if i.Name = name then is' else i :: removeFirstItemNamed name is'

/-- The item-Change scan of `(*Enum).Patch` (patch.go lines 386-392). -/
def patchFirstItemNamed (name : String) (a : Action) : List EnumItem → List EnumItem
  | [] => []
  | i :: is' =>
    if i.Name = name then EnumItem.PatchOne i a :: is'
    else i :: patchFirstItemNamed name a is'

/-- The per-action step of `(*Enum).Patch` (patch.go lines 368-416). -/
def Enum.PatchOne (e : Enum) (a : Action) : Enum :=
  if a.isEnumItem && (a.EnumV).isSome && (a.ItemV).isSome then
    match a.ItemV with
    | some iv =>
      match a.Typ with
      | .Remove => { e with Items := removeFirstItemNamed iv.Name e.Items }
      | .Add => { e with Items := e.Items ++ [copyEnumItem iv] }
      | .Change => { e with Items := patchFirstItemNamed iv.Name a e.Items }
    | none => e
  else if (a.isEnumItem || a.isEnum) && (a.EnumV).isSome then
    if a.Typ ≠ PatchType.Change then e
    else
      match a.Field, a.Next with
      | "Name", .str v => { e with Name := v }
      | "Tags", .strList v => { e with Tags := Tags.GetTags v }
      | _, _ => e
  else e

/-- The class-Remove scan of `(*Root).Patch` (patch.go lines 139-147):
order-preserving removal of the first class whose name matches. -/
def removeFirstClassNamed (name : String) : List Class → List Class
  | [] => []
  | c :: cs => if c.Name = name then cs else c :: removeFirstClassNamed name cs

/-- The forwarding scans of `(*Root).Patch` (lines 126-131 and 151-157):
the first class whose name matches receives the singleton action. -/
def patchFirstClassNamed (name : String) (a : Action) : List Class → List Class
  | [] => []
  | c :: cs =>
    if c.Name = name then Class.PatchOne c a :: cs
    else c :: patchFirstClassNamed name a cs

/-- The enum-Remove scan of `(*Root).Patch` (patch.go lines 178-186). -/
def removeFirstEnumNamed (name : String) : List Enum → List Enum
  | [] => []
  | e :: es => if e.Name = name then es else e :: removeFirstEnumNamed name es

/-- The enum forwarding scans of `(*Root).Patch` (lines 164-168 and 190-196). -/
def patchFirstEnumNamed (name : String) (a : Action) : List Enum → List Enum
  | [] => []
  | e :: es =>
    if e.Name = name then Enum.PatchOne e a :: es
    else e :: patchFirstEnumNamed name a es

/-- The per-action dispatch of `(*Root).Patch` (patch.go lines 121-202).
The interface assertions are tried most-specific first; an assertion that
succeeds but whose accessors return nil falls through to the next branch
(no `continue` is executed), which is why a member-shaped action with a nil
member view is handled by the class branch. -/
def Root.PatchOne (root : Root) (a : Action) : Root :=
  if a.isMember && (a.ClassV).isSome && (a.MemberV).isSome then
    match a.ClassV with
    | some cv => { root with Classes := patchFirstClassNamed cv.Name a root.Classes }
    | none => root
  else if (a.isMember || a.isClass) && (a.ClassV).isSome then
    match a.ClassV with
    | some cv =>
      match a.Typ with
      | .Remove => { root with Classes := removeFirstClassNamed cv.Name root.Classes }
      | .Add => { root with Classes := root.Classes ++ [copyClass cv] }
      | .Change => { root with Classes := patchFirstClassNamed cv.Name a root.Classes }
    | none => root
  else if a.isEnumItem && (a.EnumV).isSome && (a.ItemV).isSome then
    match a.EnumV with
    | some ev => { root with Enums := patchFirstEnumNamed ev.Name a root.Enums }
    | none => root
  else if (a.isEnumItem || a.isEnum) && (a.EnumV).isSome then
    match a.EnumV with
    | some ev =>
      match a.Typ with
      | .Remove => { root with Enums := removeFirstEnumNamed ev.Name root.Enums }
      | .Add => { root with Enums := root.Enums ++ [copyEnum ev] }
      | .Change => { root with Enums := patchFirstEnumNamed ev.Name a root.Enums }
    | none => root
  else root

/-- `(*Root).Patch`: fold the dispatch over the ordered action list. -/
def Root.Patch (root : Root) (actions : List Action) : Root :=
  actions.foldl Root.PatchOne root

/-- Claim-side predicate: the member target of an action is absent from the
root, reading "target" by the engine's own lookup key — name only for
Remove, name AND member type for Change. -/
def memberTargetAbsentB (root : Root) (cv : ClassView) (mv : MemberView) (t : PatchType) : Bool :=
  match findClassNamed cv.Name root.Classes with
  | none => true
  | some c =>
    match t with
    | .Remove => c.Members.all fun m => !(m.GetName == mv.GetName)
    | _ => c.Members.all fun m => !(m.GetName == mv.GetName && m.GetMemberType == mv.GetMemberType)

/-- Claim-side predicate: the named target of an action (class, enum,
member or enum item, under the same shape dispatch as `Root.PatchOne`) is
not present in the root. -/
def targetAbsentB (root : Root) (a : Action) : Bool :=
  if a.isMember && (a.ClassV).isSome && (a.MemberV).isSome then
    match a.ClassV, a.MemberV with
    | some cv, some mv => memberTargetAbsentB root cv mv a.Typ
    | _, _ => true
  else if (a.isMember || a.isClass) && (a.ClassV).isSome then
    match a.ClassV with
    | some cv => (findClassNamed cv.Name root.Classes).isNone
    | none => true
  else if a.isEnumItem && (a.EnumV).isSome && (a.ItemV).isSome then
    match a.EnumV, a.ItemV with
    | some ev, some iv =>
      match findEnumNamed ev.Name root.Enums with
      | none => true
      | some e => e.Items.all fun i => !(i.Name == iv.Name)
    | _, _ => true
  else if (a.isEnumItem || a.isEnum) && (a.EnumV).isSome then
    match a.EnumV with
    | some ev => (findEnumNamed ev.Name root.Enums).isNone
    | none => true
  else true

end Rbxapidump

/-!
## Lemmas about the tag set
-/

theorem contains_true_iff (l : List String) (a : String) : l.contains a = true ↔ a ∈ l := by
  simp

theorem dedupFirstAux_mem (l : List String) :
    ∀ seen a, a ∈ dedupFirstAux seen l ↔ a ∈ l ∧ a ∉ seen := by
  induction l with
  | nil => intro seen a; simp [dedupFirstAux]
  | cons t ts ih =>
    intro seen a
    by_cases h : seen.contains t
    · simp only [dedupFirstAux, if_pos h]
      rw [ih]
      simp only [List.mem_cons]
      constructor
      · rintro ⟨ha, hs⟩; exact ⟨Or.inr ha, hs⟩
      · rintro ⟨ha | ha, hs⟩
        · exact absurd (ha ▸ ((contains_true_iff seen t).mp h)) hs
        · exact ⟨ha, hs⟩
    · simp only [dedupFirstAux, if_neg h, List.mem_cons]
      rw [ih]
      simp only [List.mem_cons]
      constructor
      · rintro (rfl | ⟨ha, hs⟩)
        · exact ⟨Or.inl rfl, fun hmem => h ((contains_true_iff seen a).mpr hmem)⟩
        · exact ⟨Or.inr ha, fun hmem => hs (Or.inr hmem)⟩
      · rintro ⟨rfl | ha, hs⟩
        · exact Or.inl rfl
        · by_cases hat : a = t
          · exact Or.inl hat
          · exact Or.inr ⟨ha, fun hmem => (by cases hmem with
              | inl h' => exact hat h'
              | inr h' => exact hs h')⟩

theorem dedupFirstAux_nodup (l : List String) : ∀ seen, (dedupFirstAux seen l).Nodup := by
  induction l with
  | nil => intro seen; simp [dedupFirstAux]
  | cons t ts ih =>
    intro seen
    by_cases h : seen.contains t
    · simp only [dedupFirstAux]
      rw [if_pos h]
      exact ih seen
    · simp only [dedupFirstAux, if_neg h]
      refine List.nodup_cons.mpr ⟨?_, ih (t :: seen)⟩
      intro hmem
      exact ((dedupFirstAux_mem ts (t :: seen) t).mp hmem).2 (List.mem_cons_self t seen)

theorem dedupFirstAux_length (l : List String) :
    ∀ seen, (dedupFirstAux seen l).length ≤ l.length := by
  induction l with
  | nil => intro seen; simp [dedupFirstAux]
  | cons t ts ih =>
    intro seen
    by_cases h : seen.contains t
    · simp only [dedupFirstAux, if_pos h, List.length_cons]
      exact Nat.le_succ_of_le (ih seen)
    · simp only [dedupFirstAux, if_neg h, List.length_cons]
      exact Nat.succ_le_succ (ih (t :: seen))

theorem dedupFirstAux_append_dup (l : List String) :
    ∀ seen a, (a ∈ seen ∨ a ∈ l) → dedupFirstAux seen (l ++ [a]) = dedupFirstAux seen l := by
  induction l with
  | nil =>
    intro seen a h
    rcases h with h | h
    · simp only [List.nil_append, dedupFirstAux]
      rw [if_pos ((contains_true_iff seen a).mpr h)]
    · cases h
  | cons t ts ih =>
    intro seen a h
    by_cases ht : seen.contains t
    · simp only [List.cons_append, dedupFirstAux, if_pos ht]
      refine ih seen a ?_
      rcases h with h | h
      · exact Or.inl h
      · rcases List.mem_cons.mp h with rfl | h'
        · exact Or.inl ((contains_true_iff seen a).mp ht)
        · exact Or.inr h'
    · simp only [List.cons_append, dedupFirstAux, if_neg ht]
      refine congrArg (t :: ·) (ih (t :: seen) a ?_)
      rcases h with h | h
      · exact Or.inl (List.mem_cons_of_mem t h)
      · rcases List.mem_cons.mp h with rfl | h'
        · exact Or.inl (List.mem_cons_self a seen)
        · exact Or.inr h'

/-- Claim C3 (corrected).  Re-adding a label `L` already present leaves `L`
occurring exactly once and does not grow the set, but `L` is NOT moved to
the end: the deduplication loop keeps each label's first occurrence, so
`SetTag` on a set already containing `L` returns exactly the deduplicated
original sequence, with `L` at its original first-occurrence position. -/
theorem c3_settag_existing_keeps_first (tags : Tags) (L : String) (h : L ∈ tags) :
    Tags.SetTag tags [L] = dedupFirstAux [] tags ∧
    (Tags.SetTag tags [L]).count L = 1 ∧
    (Tags.SetTag tags [L]).length ≤ tags.length := by
  have heq : Tags.SetTag tags [L] = dedupFirstAux [] tags :=
    dedupFirstAux_append_dup tags [] L (Or.inr h)
  refine ⟨heq, ?_, ?_⟩
  · rw [heq]
    exact List.count_eq_one_of_mem (dedupFirstAux_nodup tags [])
      ((dedupFirstAux_mem tags [] L).mpr ⟨h, by simp⟩)
  · rw [heq]; exact dedupFirstAux_length tags []

/-- Claim C3, counterexample to the claim as stated: for the tag set
`["A", "B"]`, which already contains `"A"`, `SetTag "A"` returns
`["A", "B"]` — the re-added label stays at the front and is not positioned
at the end of the sequence. -/
theorem c3_counterexample :
    Tags.SetTag ["A", "B"] ["A"] = ["A", "B"] ∧
    (Tags.SetTag ["A", "B"] ["A"]).getLast? ≠ some "A" := by decide

theorem c3_witness :
    ("A" ∈ (["A", "B"] : Tags)) ∧
    (Tags.SetTag ["A", "B"] ["A"] = dedupFirstAux [] ["A", "B"] ∧
      (Tags.SetTag ["A", "B"] ["A"]).count "A" = 1 ∧
      (Tags.SetTag ["A", "B"] ["A"]).length ≤ (["A", "B"] : Tags).length) :=
  ⟨by decide, c3_settag_existing_keeps_first ["A", "B"] "A" (by decide)⟩

/-- A single kind of step in a sequence of tag-set mutations: one `SetTag`
call or one `UnsetTag` call, with arbitrary arguments. -/
inductive TagOp where
  | set (l : List String)
  | unset (l : List String)

/-- Apply one tag-set mutation. -/
def applyTagOp (tags : Tags) : TagOp → Tags
  | .set l => Tags.SetTag tags l
  | .unset l => Tags.UnsetTag tags l

/-- Apply a finite sequence of tag-set mutations in order. -/
def applyTagOps (tags : Tags) (ops : List TagOp) : Tags :=
  ops.foldl applyTagOp tags

theorem setTag_nodup (tags : Tags) (l : List String) : (Tags.SetTag tags l).Nodup :=
  dedupFirstAux_nodup (tags ++ l) []

theorem applyTagOp_nodup (tags : Tags) (op : TagOp) (h : tags.Nodup) :
    (applyTagOp tags op).Nodup := by
  cases op with
  | set l => exact setTag_nodup tags l
  | unset l => exact h.filter _

/-- Claim C8.  Starting from a duplicate-free tag set, any finite sequence
of `SetTag`/`UnsetTag` calls keeps it duplicate-free; moreover a single
`SetTag` call yields a duplicate-free set from ANY starting state. -/
theorem c8_tags_nodup_invariant (tags : Tags) (h : tags.Nodup) (ops : List TagOp) :
    (applyTagOps tags ops).Nodup ∧ ∀ (t : Tags) (l : List String), (Tags.SetTag t l).Nodup := by
  refine ⟨?_, fun t l => setTag_nodup t l⟩
  induction ops generalizing tags with
  | nil => exact h
  | cons op ops ih => exact ih (applyTagOp tags op) (applyTagOp_nodup tags op h)

theorem c8_witness :
    (["A", "B"] : Tags).Nodup ∧
    ((applyTagOps ["A", "B"] [TagOp.set ["C", "A"], TagOp.unset ["B"]]).Nodup ∧
      ∀ (t : Tags) (l : List String), (Tags.SetTag t l).Nodup) :=
  ⟨by decide, c8_tags_nodup_invariant ["A", "B"] (by decide) _⟩

/-!
## Lemmas about the colon-packed type string
-/

theorem splitColon_of_no_colon (l : List Char) (h : l.contains ':' = false) :
    splitColon l = none := by
  induction l with
  | nil => rfl
  | cons c cs ih =>
    simp only [List.contains_cons, Bool.or_eq_false_iff] at h
    have hc : ¬ c = ':' := by
      intro hc; subst hc; simp at h
    rw [splitColon, if_neg hc, ih (by simpa using h.2)]

theorem splitColon_pack (c n : List Char) (h : c.contains ':' = false) :
    splitColon (c ++ ':' :: n) = some (c, n) := by
  induction c with
  | nil => simp [splitColon]
  | cons x xs ih =>
    simp only [List.contains_cons, Bool.or_eq_false_iff] at h
    have hx : ¬ x = ':' := by
      intro hx; subst hx; simp at h
    rw [List.cons_append, splitColon, if_neg hx, ih (by simpa using h.2)]

/-- Claim C4 (corrected).  The colon-packed round trip is lossless exactly
when the category contains no colon and, for an empty category, the name
contains no colon: under those hypotheses, `SetFromType` followed by
`GetCategory`/`GetName` recovers the original pair. -/
theorem c4_type_roundtrip (c n : String)
    (hc : c.toList.contains ':' = false)
    (hn : c = "" → n.toList.contains ':' = false) :
    TypeGetCategory (TypeSetFromType ⟨c, n⟩) = c ∧
    TypeGetName (TypeSetFromType ⟨c, n⟩) = n := by
  by_cases hce : c = ""
  · subst hce
    have hsplit : splitColon (TypeSetFromType ⟨"", n⟩).toList = none := by
      simp only [TypeSetFromType, if_pos rfl]
      exact splitColon_of_no_colon n.toList (hn rfl)
    constructor
    · unfold TypeGetCategory
      rw [hsplit]
    · unfold TypeGetName
      rw [hsplit]
      simp [TypeSetFromType]
  · have hpack : (TypeSetFromType ⟨c, n⟩).toList = c.toList ++ ':' :: n.toList := by
      simp only [TypeSetFromType, if_neg hce]
      simp
    have hsplit : splitColon (TypeSetFromType ⟨c, n⟩).toList = some (c.toList, n.toList) := by
      rw [hpack]; exact splitColon_pack c.toList n.toList hc
    constructor
    · unfold TypeGetCategory
      rw [hsplit]
      exact rfl
    · unfold TypeGetName
      rw [hsplit]
      exact rfl

/-- Claim C4, counterexample to the claim as stated: for the generic source
type with category `""` and name `":x"`, packing and reading back does not
recover the name — `GetName` returns `"x"`, not `":x"`. -/
theorem c4_counterexample :
    TypeGetName (TypeSetFromType ⟨"", ":x"⟩) = "x" ∧
    TypeGetName (TypeSetFromType ⟨"", ":x"⟩) ≠ ":x" := by decide

theorem c4_witness :
    ("Enum".toList.contains ':' = false) ∧
    (TypeGetCategory (TypeSetFromType ⟨"Enum", "Material"⟩) = "Enum" ∧
      TypeGetName (TypeSetFromType ⟨"Enum", "Material"⟩) = "Material") :=
  ⟨by decide, c4_type_roundtrip "Enum" "Material" (by decide) (by decide)⟩

/-- Claim C5 (code bug).  The `Tags.GetTags` variant of the rbxapijson
package embedded in patch.go allocates its destination with length 0, so
`copy` transfers nothing and the returned snapshot is always empty; the
sibling implementations (rbxapidump, and rbxapijson in part_000) return the
full snapshot as the claim states. -/
theorem c5_gettags_divergence :
    RbxapijsonAlt.GetTags ["Hidden"] = [] ∧
    Tags.GetTags ["Hidden"] = ["Hidden"] ∧
    Rbxapijson.GetTags ["Hidden"] = ["Hidden"] := by decide

/-!
## Lemmas about the security-tag scan
-/

theorem hasSecTag_ne_empty (t : String) (h : hasSecTag t = true) : t ≠ "" := by
  intro he; subst he; exact absurd h (by decide)

theorem getSecLoop_stable (ts : List String) :
    ∀ r, r ≠ "" → (∀ t ∈ ts, wrPfx.isPrefixOf t.toList = false) →
      getSecLoop ts r "" = some (r, "") := by
  induction ts with
  | nil => intro r _ _; rfl
  | cons t ts ih =>
    intro r hr hnp
    rw [getSecLoop, if_neg, if_neg]
    · exact ih r hr fun x hx => hnp x (List.mem_cons_of_mem t hx)
    · rintro ⟨hre, _⟩; exact hr hre
    · rintro ⟨_, hp⟩
      rw [hnp t (List.mem_cons_self t ts)] at hp
      cases hp

/-- Claim C6 (corrected).  The read-security scan matches the two exact
substrings `"Security"` and `"security"` (not arbitrary casings), and a tag
bearing the write-restriction marker is consumed by the write slot rather
than the read slot.  For a tag list none of whose tags bears the
write-restriction marker, `GetSecurity` returns as read context the first
tag containing `"Security"` or `"security"`. -/
theorem c6_first_security_tag (tags : List String) (s : String)
    (hnp : ∀ t ∈ tags, wrPfx.isPrefixOf t.toList = false)
    (hf : tags.find? hasSecTag = some s) :
    PropertyGetSecurity tags = some (s, "") := by
  unfold PropertyGetSecurity
  induction tags with
  | nil => cases hf
  | cons t ts ih =>
    by_cases hs : hasSecTag t = true
    · have hst : s = t := by
        simp only [List.find?, hs] at hf
        exact (Option.some_injective _ hf).symm
      rw [hst]
      rw [getSecLoop, if_neg, if_pos ⟨rfl, hs⟩, if_neg (by simp)]
      · exact getSecLoop_stable ts t (hasSecTag_ne_empty t hs)
          fun x hx => hnp x (List.mem_cons_of_mem t hx)
      · rintro ⟨_, hp⟩
        rw [hnp t (List.mem_cons_self t ts)] at hp
        cases hp
    · have hf' : ts.find? hasSecTag = some s := by
        simp only [List.find?, Bool.eq_false_iff.mpr hs] at hf
        exact hf
      rw [getSecLoop, if_neg, if_neg]
      · exact ih (fun x hx => hnp x (List.mem_cons_of_mem t hx)) hf'
      · rintro ⟨_, hsec⟩; exact hs hsec
      · rintro ⟨_, hp⟩
        rw [hnp t (List.mem_cons_self t ts)] at hp
        cases hp

/-- Claim C6, counterexample to the claim as stated: the tag `"SECURITY"`
contains `"security"` case-insensitively, yet the read context comes back
empty; and a write-restriction tag containing `"Security"` is consumed by
the write slot, not returned as the read context. -/
theorem c6_counterexample :
    PropertyGetSecurity ["SECURITY"] = some ("", "") ∧
    PropertyGetSecurity ["ScriptWriteRestricted: [VSecurity]"] = some ("", "VSecurity") := by
  decide

theorem c6_witness :
    (∀ t ∈ (["Foo", "XSecurityY"] : List String), wrPfx.isPrefixOf t.toList = false) ∧
    (["Foo", "XSecurityY"] : List String).find? hasSecTag = some "XSecurityY" ∧
    PropertyGetSecurity ["Foo", "XSecurityY"] = some ("XSecurityY", "") :=
  ⟨by decide, by decide, c6_first_security_tag ["Foo", "XSecurityY"] "XSecurityY" (by decide) (by decide)⟩

theorem getSecLoop_isSome (ts : List String)
    (h : ∀ t ∈ ts, wrPfx.isPrefixOf t.toList = true → wrPfx.length < t.toList.length) :
    ∀ r w, (getSecLoop ts r w).isSome = true := by
  induction ts with
  | nil => intro r w; rfl
  | cons t ts ih =>
    intro r w
    have hrest : ∀ x ∈ ts, wrPfx.isPrefixOf x.toList = true → wrPfx.length < x.toList.length :=
      fun x hx => h x (List.mem_cons_of_mem t hx)
    rw [getSecLoop]
    by_cases h1 : w = "" ∧ wrPfx.isPrefixOf t.toList
    · rw [if_pos h1]
      have hlen : wrPfx.length < t.toList.length := h t (List.mem_cons_self t ts) h1.2
      have hslice : goStringSlice t.toList wrPfx.length (t.toList.length - 1) =
          some ((t.toList.take (t.toList.length - 1)).drop wrPfx.length) := by
        unfold goStringSlice
        rw [if_pos ⟨Nat.le_pred_of_lt hlen, Nat.sub_le _ _⟩]
      simp only [hslice]
      by_cases h2 : r ≠ ""
      · rw [if_pos h2]; rfl
      · rw [if_neg h2]; exact ih hrest r _
    · rw [if_neg h1]
      by_cases h2 : r = "" ∧ hasSecTag t
      · rw [if_pos h2]
        by_cases h3 : w ≠ ""
        · rw [if_pos h3]; rfl
        · rw [if_neg h3]; exact ih hrest t w
      · rw [if_neg h2]; exact ih hrest r w

/-- Claim C9 (corrected).  The write-restriction extraction does go out of
bounds for a tag exactly equal to the prefix (Go panics on
`tag[24:23]`); `GetSecurity` is panic-free exactly on tag lists in which
every tag bearing the prefix is strictly longer than the prefix. -/
theorem c9_no_panic (tags : List String)
    (h : ∀ t ∈ tags, wrPfx.isPrefixOf t.toList = true → wrPfx.length < t.toList.length) :
    (PropertyGetSecurity tags).isSome = true :=
  getSecLoop_isSome tags h "" ""

/-- Claim C9, counterexample to the claim as stated: on the tag list whose
single tag is exactly the prefix `"ScriptWriteRestricted: ["`, the slice
`tag[24:23]` is out of bounds and `GetSecurity` does not return normally
(the model yields `none`, Go panics). -/
theorem c9_counterexample :
    PropertyGetSecurity ["ScriptWriteRestricted: ["] = none := by decide

theorem c9_witness :
    (∀ t ∈ (["ScriptWriteRestricted: [X]"] : List String),
        wrPfx.isPrefixOf t.toList = true → wrPfx.length < t.toList.length) ∧
    (PropertyGetSecurity ["ScriptWriteRestricted: [X]"]).isSome = true :=
  ⟨by decide, c9_no_panic ["ScriptWriteRestricted: [X]"] (by decide)⟩

/-!
## Lemmas about the patch engine
-/

namespace Rbxapidump

theorem removeFirstMemberNamed_split (name : String) (pre post : List Member) (m : Member)
    (hpre : ∀ x ∈ pre, x.GetName ≠ name) (hm : m.GetName = name) :
    removeFirstMemberNamed name (pre ++ m :: post) = pre ++ post := by
  induction pre with
  | nil => simp [removeFirstMemberNamed, hm]
  | cons x xs ih =>
    simp only [List.cons_append, removeFirstMemberNamed]
    rw [if_neg (hpre x (List.mem_cons_self x xs))]
    exact congrArg (x :: ·) (ih fun y hy => hpre y (List.mem_cons_of_mem x hy))

/-- Claim C1 (corrected).  The member-Remove scan of `(*Class).Patch`
compares NAMES ONLY: forwarded a Remove member action, the class deletes
the first member whose name equals the action's member name, regardless of
member kind (kind equality is checked only for Change). -/
theorem c1_member_remove_matches_name_only (c : Class) (a : Action) (cv : ClassView)
    (mv : MemberView)
    (hm : a.isMember = true) (hcv : a.ClassV = some cv) (hmv : a.MemberV = some mv)
    (ht : a.Typ = PatchType.Remove)
    (pre post : List Member) (m : Member)
    (hms : c.Members = pre ++ m :: post)
    (hpre : ∀ x ∈ pre, x.GetName ≠ mv.GetName)
    (hname : m.GetName = mv.GetName) :
    (Class.Patch c [a]).Members = pre ++ post := by
  have h1 : Class.Patch c [a] = Class.PatchOne c a := rfl
  rw [h1]
  unfold Class.PatchOne
  rw [if_pos (by rw [hm, hcv, hmv]; rfl)]
  simp only [hmv, ht]
  show removeFirstMemberNamed mv.GetName c.Members = pre ++ post
  rw [hms]
  exact removeFirstMemberNamed_split mv.GetName pre post m hpre hname

/-- Claim C1, counterexample to the claim as stated: a class holds a
Function named "X" followed by a Property named "X"; a Remove action whose
member view is the PROPERTY "X" deletes the Function "X" — a member of a
different kind sharing the name is removed. -/
theorem c1_counterexample :
    (Class.Patch
        { Name := "C", Superclass := "",
          Members := [Member.Function "X" "C" "int" [] [], Member.Property "X" "C" "bool" []],
          Tags := [] }
        [{ isMember := true, isClass := true, isEnumItem := false, isEnum := false,
           Typ := PatchType.Remove,
           ClassV := some { Name := "C", Superclass := "", Members := [], Tags := [] },
           MemberV := some (MemberView.prop "X" { Category := "", Name := "bool" } []),
           EnumV := none, ItemV := none, Field := "", Next := NextValue.other }]).Members
      = [Member.Property "X" "C" "bool" []] ∧
    Member.GetMemberType (Member.Function "X" "C" "int" [] []) ≠
      MemberView.GetMemberType (MemberView.prop "X" { Category := "", Name := "bool" } []) := by
  decide

theorem c1_witness :
    (∀ x ∈ ([] : List Member), x.GetName ≠ "X") ∧
    (Class.Patch
        { Name := "C", Superclass := "",
          Members := [Member.Function "X" "C" "int" [] [], Member.Property "X" "C" "bool" []],
          Tags := [] }
        [{ isMember := true, isClass := true, isEnumItem := false, isEnum := false,
           Typ := PatchType.Remove,
           ClassV := some { Name := "C", Superclass := "", Members := [], Tags := [] },
           MemberV := some (MemberView.prop "X" { Category := "", Name := "bool" } []),
           EnumV := none, ItemV := none, Field := "", Next := NextValue.other }]).Members
      = [] ++ [Member.Property "X" "C" "bool" []] :=
  ⟨by decide,
    c1_member_remove_matches_name_only
      { Name := "C", Superclass := "",
        Members := [Member.Function "X" "C" "int" [] [], Member.Property "X" "C" "bool" []],
        Tags := [] }
      { isMember := true, isClass := true, isEnumItem := false, isEnum := false,
        Typ := PatchType.Remove,
        ClassV := some { Name := "C", Superclass := "", Members := [], Tags := [] },
        MemberV := some (MemberView.prop "X" { Category := "", Name := "bool" } []),
        EnumV := none, ItemV := none, Field := "", Next := NextValue.other }
      { Name := "C", Superclass := "", Members := [], Tags := [] }
      (MemberView.prop "X" { Category := "", Name := "bool" } [])
      rfl rfl rfl rfl
      [] [Member.Property "X" "C" "bool" []] (Member.Function "X" "C" "int" [] [])
      rfl (by decide) rfl⟩

/-- Claim C10 (confirmed, with the patch interface contract modelled from
the spec).  A member-interface action whose member accessor returns nil but
whose class accessor is non-nil is not dropped: the member branch's inner
nil-check fails without `continue`, so the action falls to the class branch
and is applied as a class-level Add (appending a bridged copy), Remove, or
Change on the root's class list. -/
theorem c10_nil_member_falls_to_class_branch (root : Root) (a : Action) (cv : ClassView)
    (hm : a.isMember = true) (hmv : a.MemberV = none) (hcv : a.ClassV = some cv) :
    (a.Typ = PatchType.Add →
      Root.Patch root [a] = { root with Classes := root.Classes ++ [copyClass cv] }) ∧
    (a.Typ = PatchType.Remove →
      Root.Patch root [a] = { root with Classes := removeFirstClassNamed cv.Name root.Classes }) ∧
    (a.Typ = PatchType.Change →
      Root.Patch root [a] = { root with Classes := patchFirstClassNamed cv.Name a root.Classes }) := by
  have h1 : Root.Patch root [a] = Root.PatchOne root a := rfl
  have hcond1 : ¬(a.isMember && (a.ClassV).isSome && (a.MemberV).isSome) = true := by
    rw [hmv]
    simp
  have hcond2 : ((a.isMember || a.isClass) && (a.ClassV).isSome) = true := by
    rw [hm, hcv]
    simp
  refine ⟨fun ht => ?_, fun ht => ?_, fun ht => ?_⟩ <;>
    · rw [h1]
      unfold Root.PatchOne
      rw [if_neg hcond1, if_pos hcond2]
      simp only [hcv, ht]

theorem c10_witness :
    Root.Patch { Classes := [], Enums := [] }
        [{ isMember := true, isClass := true, isEnumItem := false, isEnum := false,
           Typ := PatchType.Add,
           ClassV := some { Name := "Part", Superclass := "Instance", Members := [], Tags := [] },
           MemberV := none, EnumV := none, ItemV := none, Field := "", Next := NextValue.other }]
      = { Classes := [copyClass { Name := "Part", Superclass := "Instance", Members := [], Tags := [] }],
          Enums := [] } :=
  (c10_nil_member_falls_to_class_branch { Classes := [], Enums := [] }
      { isMember := true, isClass := true, isEnumItem := false, isEnum := false,
        Typ := PatchType.Add,
        ClassV := some { Name := "Part", Superclass := "Instance", Members := [], Tags := [] },
        MemberV := none, EnumV := none, ItemV := none, Field := "", Next := NextValue.other }
      { Name := "Part", Superclass := "Instance", Members := [], Tags := [] }
      rfl rfl rfl).1 rfl

end Rbxapidump

namespace Rbxapidump

theorem findClassNamed_split (n : String) (pre rest : List Class) (c : Class)
    (hpre : ∀ x ∈ pre, x.Name ≠ n) (hc : c.Name = n) :
    findClassNamed n (pre ++ c :: rest) = some c := by
  induction pre with
  | nil => simp [findClassNamed, hc]
  | cons x xs ih =>
    simp only [List.cons_append, findClassNamed]
    rw [if_neg (hpre x (List.mem_cons_self x xs))]
    exact ih fun y hy => hpre y (List.mem_cons_of_mem x hy)

theorem removeFirstClassNamed_split (n : String) (pre rest : List Class) (c : Class)
    (hpre : ∀ x ∈ pre, x.Name ≠ n) (hc : c.Name = n) :
    removeFirstClassNamed n (pre ++ c :: rest) = pre ++ rest := by
  induction pre with
  | nil => simp [removeFirstClassNamed, hc]
  | cons x xs ih =>
    simp only [List.cons_append, removeFirstClassNamed]
    rw [if_neg (hpre x (List.mem_cons_self x xs))]
    exact congrArg (x :: ·) (ih fun y hy => hpre y (List.mem_cons_of_mem x hy))

theorem patchFirstClassNamed_split (n : String) (a : Action) (pre rest : List Class) (c : Class)
    (hpre : ∀ x ∈ pre, x.Name ≠ n) (hc : c.Name = n) :
    patchFirstClassNamed n a (pre ++ c :: rest) = pre ++ Class.PatchOne c a :: rest := by
  induction pre with
  | nil => simp [patchFirstClassNamed, hc]
  | cons x xs ih =>
    simp only [List.cons_append, patchFirstClassNamed]
    rw [if_neg (hpre x (List.mem_cons_self x xs))]
    exact congrArg (x :: ·) (ih fun y hy => hpre y (List.mem_cons_of_mem x hy))

/-- Claim C7 (confirmed).  With two classes of the same name in a root,
`GetClass` returns the first in declaration order, a single class-Remove
action targeting that name deletes only the first (the second and the rest
keep their order), and a single class-Change action mutates only the
first. -/
theorem c7_duplicate_names_first_wins (root : Root) (n : String) (pre mid post : List Class)
    (c1 c2 : Class)
    (hsplit : root.Classes = pre ++ c1 :: (mid ++ c2 :: post))
    (h1 : c1.Name = n) (h2 : c2.Name = n)
    (hpre : ∀ x ∈ pre, x.Name ≠ n) :
    root.GetClass n = some c1 ∧
    (∀ (a : Action) (cv : ClassView),
      a.isMember = false → a.isClass = true → a.ClassV = some cv → cv.Name = n →
      a.Typ = PatchType.Remove →
      (Root.Patch root [a]).Classes = pre ++ (mid ++ c2 :: post)) ∧
    (∀ (a : Action) (cv : ClassView),
      a.isMember = false → a.isClass = true → a.ClassV = some cv → cv.Name = n →
      a.Typ = PatchType.Change →
      (Root.Patch root [a]).Classes = pre ++ Class.PatchOne c1 a :: (mid ++ c2 :: post)) := by
  refine ⟨?_, ?_, ?_⟩
  · unfold Root.GetClass
    rw [hsplit]
    exact findClassNamed_split n pre _ c1 hpre h1
  · intro a cv hm hc hcv hn ht
    have hfold : Root.Patch root [a] = Root.PatchOne root a := rfl
    rw [hfold]
    unfold Root.PatchOne
    rw [if_neg (by rw [hm]; simp), if_pos (by rw [hc, hcv]; simp)]
    simp only [hcv, ht]
    show removeFirstClassNamed cv.Name root.Classes = pre ++ (mid ++ c2 :: post)
    rw [hn, hsplit]
    exact removeFirstClassNamed_split n pre _ c1 hpre h1
  · intro a cv hm hc hcv hn ht
    have hfold : Root.Patch root [a] = Root.PatchOne root a := rfl
    rw [hfold]
    unfold Root.PatchOne
    rw [if_neg (by rw [hm]; simp), if_pos (by rw [hc, hcv]; simp)]
    simp only [hcv, ht]
    show patchFirstClassNamed cv.Name a root.Classes = pre ++ Class.PatchOne c1 a :: (mid ++ c2 :: post)
    rw [hn, hsplit]
    exact patchFirstClassNamed_split n a pre _ c1 hpre h1

theorem c7_witness :
    (Root.GetClass
        { Classes := [{ Name := "Dup", Superclass := "A", Members := [], Tags := [] },
                      { Name := "Dup", Superclass := "B", Members := [], Tags := [] }],
          Enums := [] } "Dup"
      = some { Name := "Dup", Superclass := "A", Members := [], Tags := [] }) ∧
    (Root.Patch
        { Classes := [{ Name := "Dup", Superclass := "A", Members := [], Tags := [] },
                      { Name := "Dup", Superclass := "B", Members := [], Tags := [] }],
          Enums := [] }
        [{ isMember := false, isClass := true, isEnumItem := false, isEnum := false,
           Typ := PatchType.Remove,
           ClassV := some { Name := "Dup", Superclass := "", Members := [], Tags := [] },
           MemberV := none, EnumV := none, ItemV := none, Field := "", Next := NextValue.other }]).Classes
      = [] ++ ([] ++ [{ Name := "Dup", Superclass := "B", Members := [], Tags := [] }]) :=
  ⟨(c7_duplicate_names_first_wins
      { Classes := [{ Name := "Dup", Superclass := "A", Members := [], Tags := [] },
                    { Name := "Dup", Superclass := "B", Members := [], Tags := [] }],
        Enums := [] } "Dup" [] [] []
      { Name := "Dup", Superclass := "A", Members := [], Tags := [] }
      { Name := "Dup", Superclass := "B", Members := [], Tags := [] }
      rfl rfl rfl (by decide)).1,
   (c7_duplicate_names_first_wins
      { Classes := [{ Name := "Dup", Superclass := "A", Members := [], Tags := [] },
                    { Name := "Dup", Superclass := "B", Members := [], Tags := [] }],
        Enums := [] } "Dup" [] [] []
      { Name := "Dup", Superclass := "A", Members := [], Tags := [] }
      { Name := "Dup", Superclass := "B", Members := [], Tags := [] }
      rfl rfl rfl (by decide)).2.1
      { isMember := false, isClass := true, isEnumItem := false, isEnum := false,
        Typ := PatchType.Remove,
        ClassV := some { Name := "Dup", Superclass := "", Members := [], Tags := [] },
        MemberV := none, EnumV := none, ItemV := none, Field := "", Next := NextValue.other }
      { Name := "Dup", Superclass := "", Members := [], Tags := [] }
      rfl rfl rfl rfl rfl⟩

end Rbxapidump

namespace Rbxapidump

theorem removeFirstMemberNamed_noop (n : String) (ms : List Member)
    (h : ∀ m ∈ ms, ¬(m.GetName = n)) : removeFirstMemberNamed n ms = ms := by
  induction ms with
  | nil => rfl
  | cons m ms ih =>
    rw [removeFirstMemberNamed, if_neg (h m (List.mem_cons_self m ms))]
    exact congrArg (m :: ·) (ih fun y hy => h y (List.mem_cons_of_mem m hy))

theorem patchFirstMemberNamedKind_noop (n k : String) (a : Action) (ms : List Member)
    (h : ∀ m ∈ ms, ¬(m.GetName = n ∧ m.GetMemberType = k)) :
    patchFirstMemberNamedKind n k a ms = ms := by
  induction ms with
  | nil => rfl
  | cons m ms ih =>
    rw [patchFirstMemberNamedKind, if_neg (h m (List.mem_cons_self m ms))]
    exact congrArg (m :: ·) (ih fun y hy => h y (List.mem_cons_of_mem m hy))

theorem removeFirstItemNamed_noop (n : String) (its : List EnumItem)
    (h : ∀ i ∈ its, ¬(i.Name = n)) : removeFirstItemNamed n its = its := by
  induction its with
  | nil => rfl
  | cons i its ih =>
    rw [removeFirstItemNamed, if_neg (h i (List.mem_cons_self i its))]
    exact congrArg (i :: ·) (ih fun y hy => h y (List.mem_cons_of_mem i hy))

theorem patchFirstItemNamed_noop (n : String) (a : Action) (its : List EnumItem)
    (h : ∀ i ∈ its, ¬(i.Name = n)) : patchFirstItemNamed n a its = its := by
  induction its with
  | nil => rfl
  | cons i its ih =>
    rw [patchFirstItemNamed, if_neg (h i (List.mem_cons_self i its))]
    exact congrArg (i :: ·) (ih fun y hy => h y (List.mem_cons_of_mem i hy))

theorem removeFirstClassNamed_noop (n : String) (cs : List Class)
    (hfind : findClassNamed n cs = none) : removeFirstClassNamed n cs = cs := by
  induction cs with
  | nil => rfl
  | cons x xs ih =>
    by_cases hx : x.Name = n
    · rw [findClassNamed, if_pos hx] at hfind; cases hfind
    · rw [findClassNamed, if_neg hx] at hfind
      rw [removeFirstClassNamed, if_neg hx]
      exact congrArg (x :: ·) (ih hfind)

theorem patchFirstClassNamed_noop_of_none (n : String) (a : Action) (cs : List Class)
    (hfind : findClassNamed n cs = none) : patchFirstClassNamed n a cs = cs := by
  induction cs with
  | nil => rfl
  | cons x xs ih =>
    by_cases hx : x.Name = n
    · rw [findClassNamed, if_pos hx] at hfind; cases hfind
    · rw [findClassNamed, if_neg hx] at hfind
      rw [patchFirstClassNamed, if_neg hx]
      exact congrArg (x :: ·) (ih hfind)

theorem patchFirstClassNamed_noop_of_fixed (n : String) (a : Action) (cs : List Class) (c : Class)
    (hfind : findClassNamed n cs = some c) (hfix : Class.PatchOne c a = c) :
    patchFirstClassNamed n a cs = cs := by
  induction cs with
  | nil => cases hfind
  | cons x xs ih =>
    by_cases hx : x.Name = n
    · rw [findClassNamed, if_pos hx] at hfind
      have hxc : x = c := by injection hfind
      rw [patchFirstClassNamed, if_pos hx, hxc, hfix]
    · rw [findClassNamed, if_neg hx] at hfind
      rw [patchFirstClassNamed, if_neg hx]
      exact congrArg (x :: ·) (ih hfind)

theorem removeFirstEnumNamed_noop (n : String) (es : List Enum)
    (hfind : findEnumNamed n es = none) : removeFirstEnumNamed n es = es := by
  induction es with
  | nil => rfl
  | cons x xs ih =>
    by_cases hx : x.Name = n
    · rw [findEnumNamed, if_pos hx] at hfind; cases hfind
    · rw [findEnumNamed, if_neg hx] at hfind
      rw [removeFirstEnumNamed, if_neg hx]
      exact congrArg (x :: ·) (ih hfind)

theorem patchFirstEnumNamed_noop_of_none (n : String) (a : Action) (es : List Enum)
    (hfind : findEnumNamed n es = none) : patchFirstEnumNamed n a es = es := by
  induction es with
  | nil => rfl
  | cons x xs ih =>
    by_cases hx : x.Name = n
    · rw [findEnumNamed, if_pos hx] at hfind; cases hfind
    · rw [findEnumNamed, if_neg hx] at hfind
      rw [patchFirstEnumNamed, if_neg hx]
      exact congrArg (x :: ·) (ih hfind)

theorem patchFirstEnumNamed_noop_of_fixed (n : String) (a : Action) (es : List Enum) (e : Enum)
    (hfind : findEnumNamed n es = some e) (hfix : Enum.PatchOne e a = e) :
    patchFirstEnumNamed n a es = es := by
  induction es with
  | nil => cases hfind
  | cons x xs ih =>
    by_cases hx : x.Name = n
    · rw [findEnumNamed, if_pos hx] at hfind
      have hxe : x = e := by injection hfind
      rw [patchFirstEnumNamed, if_pos hx, hxe, hfix]
    · rw [findEnumNamed, if_neg hx] at hfind
      rw [patchFirstEnumNamed, if_neg hx]
      exact congrArg (x :: ·) (ih hfind)

theorem Class.PatchOne_member_absent (c : Class) (a : Action) (mv : MemberView)
    (hcond : (a.isMember && (a.ClassV).isSome && (a.MemberV).isSome) = true)
    (hmv : a.MemberV = some mv)
    (hrem : a.Typ = PatchType.Remove → ∀ m ∈ c.Members, ¬(m.GetName = mv.GetName))
    (hchg : a.Typ = PatchType.Change →
      ∀ m ∈ c.Members, ¬(m.GetName = mv.GetName ∧ m.GetMemberType = mv.GetMemberType))
    (htadd : a.Typ ≠ PatchType.Add) :
    Class.PatchOne c a = c := by
  cases htyp : a.Typ with
  | Add => exact absurd htyp htadd
  | Remove =>
    unfold Class.PatchOne
    rw [if_pos hcond]
    simp only [hmv, htyp]
    rw [removeFirstMemberNamed_noop mv.GetName c.Members (hrem htyp)]
  | Change =>
    unfold Class.PatchOne
    rw [if_pos hcond]
    simp only [hmv, htyp]
    rw [patchFirstMemberNamedKind_noop mv.GetName mv.GetMemberType a c.Members (hchg htyp)]

theorem Enum.PatchOne_item_absent (e : Enum) (a : Action) (iv : EnumItemView)
    (hcond : (a.isEnumItem && (a.EnumV).isSome && (a.ItemV).isSome) = true)
    (hiv : a.ItemV = some iv)
    (habs : ∀ i ∈ e.Items, ¬(i.Name = iv.Name))
    (htadd : a.Typ ≠ PatchType.Add) :
    Enum.PatchOne e a = e := by
  cases htyp : a.Typ with
  | Add => exact absurd htyp htadd
  | Remove =>
    unfold Enum.PatchOne
    rw [if_pos hcond]
    simp only [hiv, htyp]
    rw [removeFirstItemNamed_noop iv.Name e.Items habs]
  | Change =>
    unfold Enum.PatchOne
    rw [if_pos hcond]
    simp only [hiv, htyp]
    rw [patchFirstItemNamed_noop iv.Name a e.Items habs]

end Rbxapidump

namespace Rbxapidump

/-- Claim C2 (confirmed).  A single Change or Remove action whose named
target is absent (reading "target" by the engine's own lookup key: class
name, enum name, item name, member name for Remove, member name and kind
for Change) leaves the Root identical: `Root.Patch` returns the very same
value, so no class, enum, member, item, tag or any other field changes. -/
theorem c2_missing_target_noop (root : Root) (a : Action)
    (ht : a.Typ = PatchType.Change ∨ a.Typ = PatchType.Remove)
    (habs : targetAbsentB root a = true) :
    Root.Patch root [a] = root := by
  have htadd : a.Typ ≠ PatchType.Add := by
    rcases ht with h | h <;> rw [h] <;> intro hc <;> cases hc
  have hfold : Root.Patch root [a] = Root.PatchOne root a := rfl
  rw [hfold]
  unfold Root.PatchOne
  unfold targetAbsentB at habs
  by_cases hc1 : (a.isMember && (a.ClassV).isSome && (a.MemberV).isSome) = true
  · rw [if_pos hc1]
    rw [if_pos hc1] at habs
    cases hcv : a.ClassV with
    | none => simp only [hcv]
    | some cv =>
      simp only [hcv]
      cases hmv : a.MemberV with
      | none =>
        rw [hmv] at hc1
        simp at hc1
      | some mv =>
        simp only [hcv, hmv] at habs
        unfold memberTargetAbsentB at habs
        cases hfind : findClassNamed cv.Name root.Classes with
        | none =>
          rw [patchFirstClassNamed_noop_of_none cv.Name a root.Classes hfind]
        | some c =>
          rw [hfind] at habs
          have hfix : Class.PatchOne c a = c := by
            refine Class.PatchOne_member_absent c a mv hc1 hmv ?_ ?_ htadd
            · intro htyp
              rw [htyp] at habs
              simp only [List.all_eq_true] at habs
              intro m hm'
              have hb := habs m hm'
              simpa using hb
            · intro htyp
              rw [htyp] at habs
              simp only [List.all_eq_true] at habs
              intro m hm'
              have hb := habs m hm'
              simp only [Bool.not_eq_true', Bool.and_eq_false_iff, beq_eq_false_iff_ne] at hb
              tauto
          rw [patchFirstClassNamed_noop_of_fixed cv.Name a root.Classes c hfind hfix]
  · rw [if_neg hc1]
    rw [if_neg hc1] at habs
    by_cases hc2 : ((a.isMember || a.isClass) && (a.ClassV).isSome) = true
    · rw [if_pos hc2]
      rw [if_pos hc2] at habs
      cases hcv : a.ClassV with
      | none => simp only [hcv]
      | some cv =>
        simp only [hcv]
        simp only [hcv] at habs
        have hfind : findClassNamed cv.Name root.Classes = none :=
          Option.isNone_iff_eq_none.mp habs
        rcases ht with htyp | htyp <;> simp only [htyp]
        · rw [patchFirstClassNamed_noop_of_none cv.Name a root.Classes hfind]
        · rw [removeFirstClassNamed_noop cv.Name root.Classes hfind]
    · rw [if_neg hc2]
      rw [if_neg hc2] at habs
      by_cases hc3 : (a.isEnumItem && (a.EnumV).isSome && (a.ItemV).isSome) = true
      · rw [if_pos hc3]
        rw [if_pos hc3] at habs
        cases hev : a.EnumV with
        | none => simp only [hev]
        | some ev =>
          simp only [hev]
          cases hiv : a.ItemV with
          | none =>
            rw [hiv] at hc3
            simp at hc3
          | some iv =>
            simp only [hev, hiv] at habs
            cases hfind : findEnumNamed ev.Name root.Enums with
            | none =>
              rw [patchFirstEnumNamed_noop_of_none ev.Name a root.Enums hfind]
            | some e =>
              rw [hfind] at habs
              have hfix : Enum.PatchOne e a = e := by
                refine Enum.PatchOne_item_absent e a iv hc3 hiv ?_ htadd
                simp only [List.all_eq_true] at habs
                intro i hi'
                have hb := habs i hi'
                simpa using hb
              rw [patchFirstEnumNamed_noop_of_fixed ev.Name a root.Enums e hfind hfix]
      · rw [if_neg hc3]
        rw [if_neg hc3] at habs
        by_cases hc4 : ((a.isEnumItem || a.isEnum) && (a.EnumV).isSome) = true
        · rw [if_pos hc4]
          rw [if_pos hc4] at habs
          cases hev : a.EnumV with
          | none => simp only [hev]
          | some ev =>
            simp only [hev]
            simp only [hev] at habs
            have hfind : findEnumNamed ev.Name root.Enums = none :=
              Option.isNone_iff_eq_none.mp habs
            rcases ht with htyp | htyp <;> simp only [htyp]
            · rw [patchFirstEnumNamed_noop_of_none ev.Name a root.Enums hfind]
            · rw [removeFirstEnumNamed_noop ev.Name root.Enums hfind]
        · rw [if_neg hc4]

theorem c2_witness :
    targetAbsentB
        { Classes := [{ Name := "Workspace", Superclass := "", Members := [], Tags := [] }],
          Enums := [] }
        { isMember := false, isClass := true, isEnumItem := false, isEnum := false,
          Typ := PatchType.Change,
          ClassV := some { Name := "Missing", Superclass := "", Members := [], Tags := [] },
          MemberV := none, EnumV := none, ItemV := none,
          Field := "Name", Next := NextValue.str "Renamed" } = true ∧
    Root.Patch
        { Classes := [{ Name := "Workspace", Superclass := "", Members := [], Tags := [] }],
          Enums := [] }
        [{ isMember := false, isClass := true, isEnumItem := false, isEnum := false,
           Typ := PatchType.Change,
           ClassV := some { Name := "Missing", Superclass := "", Members := [], Tags := [] },
           MemberV := none, EnumV := none, ItemV := none,
           Field := "Name", Next := NextValue.str "Renamed" }]
      = { Classes := [{ Name := "Workspace", Superclass := "", Members := [], Tags := [] }],
          Enums := [] } :=
  ⟨by decide,
    c2_missing_target_noop
      { Classes := [{ Name := "Workspace", Superclass := "", Members := [], Tags := [] }],
        Enums := [] }
      { isMember := false, isClass := true, isEnumItem := false, isEnum := false,
        Typ := PatchType.Change,
        ClassV := some { Name := "Missing", Superclass := "", Members := [], Tags := [] },
        MemberV := none, EnumV := none, ItemV := none,
        Field := "Name", Next := NextValue.str "Renamed" }
      (Or.inl rfl) (by decide)⟩

end Rbxapidump
